import Mathlib

/-!
# A shallow embedding of the etcd WAL record decoder

This file models the write-ahead-log record decoder (`decoder.go` of the
`wal` package): the frame codec (`decodeFrameSize`), the torn-write
heuristic (`isTornEntry`), the checksum bookkeeping (`updateCRC`,
`lastCRC`), the offset bookkeeping (`lastOffset`) and the orchestrating
`decodeRecord` loop over a list of segment readers.

Machine integers are modelled as `Int`/`Nat` with explicit reductions
modulo `2^64` where the Go code relies on 64-bit wrap-around.  A segment
reader (`fileutil.FileBufReader`) is modelled as the list of its unread
bytes together with the total file size reported by `FileInfo().Size()`.
The externally-defined pieces (the protobuf record schema `walpb.Record`
and the CRC-32 hash) enter as parameters: `um` is `Record.Unmarshal` and
`cu` is the state transformer of `crc.Write` (the etcd `crc` hash keeps a
single `uint32` of state, `New(prev, tab)` seeds it with `prev`, `Sum32`
returns it, and `Write` folds bytes into it with `crc32.Update`).
-/

namespace Wal

/-- `minSectorSize` from decoder.go: the assumed disk sector size. -/
def minSectorSize : Int := 512

/-- `frameSizeBytes` from decoder.go: size of the 8-byte length header. -/
def frameSizeBytes : Int := 8

/-- Modelled from the spec: the record-type enum value of the checksum
control record (`crcType`, declared in the surrounding `wal` package,
outside the given sources).  Its concrete value is irrelevant to every
theorem below; only the comparison `rec.Type != crcType` matters. -/
def crcType : Int := 4

/-- Modelled from the spec: `walpb.Record`, the externally-defined record
schema `{type, checksum (crc), data}` consumed by the decoder. -/
structure Record where
  type : Int
  crc  : Nat
  data : List Nat
deriving DecidableEq

/-- A `fileutil.FileBufReader`: the unread remainder of one segment file
plus the file size reported by `FileInfo().Size()`. -/
structure FileBufReader where
  bytes : List Nat
  size  : Int
deriving DecidableEq

/-- The mutable state of the `decoder` struct: the reader list `brs`, the
offset `lastValidOff` past the last valid record, and the CRC accumulator
(represented by its current `Sum32` value). -/
structure Decoder where
  brs          : List FileBufReader
  lastValidOff : Int
  crc          : Nat
deriving DecidableEq

/-- The errors `decodeRecord` can produce.  `eof` is `io.EOF`,
`unexpectedEOF` is `io.ErrUnexpectedEOF` (the "possibly torn" signal),
`sizeLimit` is the fatal `fmt.Errorf("wal: max entry size limit exceeded…")`
carrying `recBytes`, the file size, the offset and `padBytes`,
`unmarshalFailure` is an error from `rec.Unmarshal`, and `crcMismatch`
is the validation error from `rec.Validate`. -/
inductive DecodeError where
  | eof
  | unexpectedEOF
  | sizeLimit (recBytes fileSize offset padBytes : Int)
  | unmarshalFailure
  | crcMismatch
deriving DecidableEq

/-- Decidable equality of decode outcomes, for concrete evaluation. -/
instance {ε α : Type} [DecidableEq ε] [DecidableEq α] : DecidableEq (Except ε α) :=
  fun x y =>
    match x, y with
    | .error e, .error f =>
      match decEq e f with
      | isTrue h => isTrue (by rw [h])
      | isFalse h => isFalse (by intro hc; cases hc; exact h rfl)
    | .error _, .ok _ => isFalse (by intro hc; cases hc)
    | .ok _, .error _ => isFalse (by intro hc; cases hc)
    | .ok a, .ok b =>
      match decEq a b with
      | isTrue h => isTrue (by rw [h])
      | isFalse h => isFalse (by intro hc; cases hc; exact h rfl)

/-- Little-endian interpretation of a byte list as an unsigned number. -/
def leNat : List Nat → Nat
  | []      => 0
  | b :: bs => b + 256 * leNat bs

/-- Reinterpret an unsigned 64-bit quantity as a signed `int64`. -/
def toInt64 (n : Nat) : Int :=
  let u : Nat := n % 2 ^ 64
  if u < 2 ^ 63 then (u : Int) else (u : Int) - 2 ^ 64

/-- The `uint64(lenField)` reinterpretation of an `int64`. -/
def uint64OfInt64 (l : Int) : Nat := (l % (2 ^ 64 : Int)).toNat

/-- `readInt64` from decoder.go: `binary.Read(r, binary.LittleEndian, &n)`.
`binary.Read` performs `io.ReadFull` on 8 bytes: a reader with no bytes
left yields `io.EOF`, a reader with 1–7 bytes yields
`io.ErrUnexpectedEOF` (draining the reader), and otherwise the 8 bytes
are consumed and assembled least-significant-byte first. -/
def readInt64 (r : FileBufReader) : Except DecodeError (Int × FileBufReader) :=
  if r.bytes.length = 0 then .error .eof
  else if r.bytes.length < 8 then .error .unexpectedEOF
  else .ok (toInt64 (leNat (r.bytes.take 8)), { r with bytes := r.bytes.drop 8 })

/-- `decodeFrameSize` from decoder.go: the record size is the lower 56
bits of the 64-bit length (`uint64(lenField) & ^(uint64(0xff) << 56)`);
a negative length indicates padding, stored in the lower 3 bits of the
most significant byte (`(uint64(lenField) >> 56) & 0x7`). -/
def decodeFrameSize (lenField : Int) : Int × Int :=
  let recBytes : Int := (uint64OfInt64 lenField % 2 ^ 56 : Nat)
  let padBytes : Int :=
    if lenField < 0 then ((uint64OfInt64 lenField / 2 ^ 56) % 8 : Nat) else 0
  (recBytes, padBytes)

/-- `io.ReadFull(fileBufReader, data)` for a buffer of `n` bytes: succeeds
consuming exactly `n` bytes when that many remain; returns `io.EOF` when
no bytes were read (and `n > 0`); returns `io.ErrUnexpectedEOF` after a
partial read.  Either failure drains the reader. -/
def readFull (r : FileBufReader) (n : Nat) :
    Except DecodeError (List Nat × FileBufReader) :=
  if n ≤ r.bytes.length then .ok (r.bytes.take n, { r with bytes := r.bytes.drop n })
  else if r.bytes.length = 0 then .error .eof
  else .error .unexpectedEOF

/-- The chunk-splitting loop of `isTornEntry`, with the loop expressed as
fuel-bounded recursion: each iteration cuts a chunk of length
`minSectorSize - fileOff % minSectorSize` (Go `%` truncates, `Int.tmod`),
capped at the remaining data, so that chunk boundaries land on 512-byte
sector boundaries.  Every chunk is nonempty (the truncated remainder is
`< minSectorSize`), so `data.length` units of fuel always suffice. -/
def splitChunksGo (fuel : Nat) (fileOff : Int) (data : List Nat) : List (List Nat) :=
  match fuel with
  | 0 => []
  | fuel + 1 =>
    if data.length = 0 then []
    else
      let chunkLen := min (minSectorSize - Int.tmod fileOff minSectorSize).toNat data.length
      data.take chunkLen :: splitChunksGo fuel (fileOff + chunkLen) (data.drop chunkLen)

/-- Splitting `data` on sector boundaries starting at absolute file
offset `fileOff`: the `chunks` computed by `isTornEntry`. -/
def splitChunks (fileOff : Int) (data : List Nat) : List (List Nat) :=
  splitChunksGo data.length fileOff data

/-- The all-zero test of `isTornEntry`'s inner loop. -/
def allZero (sect : List Nat) : Bool := sect.all (· = 0)

/-- `isTornEntry` from decoder.go: meaningful only when exactly one
segment reader remains; splits the attempted payload+padding bytes into
sector-aligned chunks starting at absolute offset
`lastValidOff + frameSizeBytes` and reports a torn write when any chunk
is entirely zero. -/
def isTornEntry (brs : List FileBufReader) (lastValidOff : Int)
    (data : List Nat) : Bool :=
  if brs.length ≠ 1 then false
  else
    let fileOff := lastValidOff + frameSizeBytes
    (splitChunks fileOff data).any allZero

/-- The body of `decodeRecord` after a nonzero length header `l` has been
read (`r'` is the front reader with the 8 header bytes consumed, `rest`
the remaining readers, `off` = `lastValidOff`, `c` the CRC accumulator):
the size-limit check, the `io.ReadFull` of payload+padding, the
unmarshal, and the CRC validation with torn-write reclassification. -/
def decodeFrameBody (um : List Nat → Option Record) (cu : Nat → List Nat → Nat)
    (rest : List FileBufReader) (off : Int) (c : Nat) (l : Int)
    (r' : FileBufReader) : Except DecodeError Record × Decoder :=
  let rb := (decodeFrameSize l).1
  let pb := (decodeFrameSize l).2
  let maxEntryLimit := r'.size - off - pb
  if rb > maxEntryLimit then
    (.error (.sizeLimit rb r'.size off pb), ⟨r' :: rest, off, c⟩)
  else
    match readFull r' (rb + pb).toNat with
    | .error e =>
      -- ReadFull returns io.EOF only if no bytes were read;
      -- the decoder treats this as an ErrUnexpectedEOF instead
      (.error (if e = .eof then .unexpectedEOF else e),
       ⟨{ r' with bytes := [] } :: rest, off, c⟩)
    | .ok (data, r'') =>
      match um (data.take rb.toNat) with
      | none =>
        if isTornEntry (r'' :: rest) off data then
          (.error .unexpectedEOF, ⟨r'' :: rest, off, c⟩)
        else
          (.error .unmarshalFailure, ⟨r'' :: rest, off, c⟩)
      | some rec =>
        if rec.type ≠ crcType then
          -- skip crc checking if the record type is crcType
          let c' := cu c rec.data
          if rec.crc = c' then
            (.ok rec, ⟨r'' :: rest, off + frameSizeBytes + rb + pb, c'⟩)
          else if isTornEntry (r'' :: rest) off data then
            (.error .unexpectedEOF, ⟨r'' :: rest, off, c'⟩)
          else
            (.error .crcMismatch, ⟨r'' :: rest, off, c'⟩)
        else
          (.ok rec, ⟨r'' :: rest, off + frameSizeBytes + rb + pb, c⟩)

/-- `decodeRecord` from decoder.go, with the decoder state passed
explicitly (`brs`, `lastValidOff`, `crc`) and returned alongside the
outcome.  `um` is `walpb.Record.Unmarshal` (`none` = unmarshal error),
`cu` is the CRC-32 accumulator update performed by `d.crc.Write`. -/
def decodeRecordAux (um : List Nat → Option Record) (cu : Nat → List Nat → Nat) :
    List FileBufReader → Int → Nat → Except DecodeError Record × Decoder
  | [], off, c => (.error .eof, ⟨[], off, c⟩)
  | r :: rest, off, c =>
    match readInt64 r with
    | .error .eof =>
      -- hit end of file: drop the front reader, retry on the next segment
      if rest.isEmpty then (.error .eof, ⟨[], off, c⟩)
      else decodeRecordAux um cu rest 0 c
    | .error e => (.error e, ⟨{ r with bytes := [] } :: rest, off, c⟩)
    | .ok (l, r') =>
      if l = 0 then
        -- hit preallocated space: same exhaustion handling
        if rest.isEmpty then (.error .eof, ⟨[], off, c⟩)
        else decodeRecordAux um cu rest 0 c
      else
        decodeFrameBody um cu rest off c l r'

/-- `decode`/`decodeRecord` on the decoder state. -/
def decodeRecord (um : List Nat → Option Record) (cu : Nat → List Nat → Nat)
    (d : Decoder) : Except DecodeError Record × Decoder :=
  decodeRecordAux um cu d.brs d.lastValidOff d.crc

/-- `newDecoder`: fresh reader list, offset 0, CRC seeded with 0. -/
def newDecoder (rs : List FileBufReader) : Decoder := ⟨rs, 0, 0⟩

/-- `updateCRC` from decoder.go: `d.crc = crc.New(prevCrc, crcTable)` —
the accumulator is replaced by a fresh hash whose state is `prevCrc`. -/
def updateCRC (d : Decoder) (prevCrc : Nat) : Decoder := { d with crc := prevCrc }

/-- `lastCRC` from decoder.go: the accumulator's current `Sum32`. -/
def lastCRC (d : Decoder) : Nat := d.crc

/-- `lastOffset` from decoder.go. -/
def lastOffset (d : Decoder) : Int := d.lastValidOff

/-- Modelled from the spec: the writer-side header encoding (the encoder
lives outside the given sources) — `recBytes` occupies bits 0–55; when
padding is present the sign bit (bit 63) is set and `padBytes` occupies
bits 56–58 of the 64-bit header. -/
def encodeFrameSize (recBytes padBytes : Nat) : Int :=
  if padBytes = 0 then toInt64 recBytes
  else toInt64 (recBytes + padBytes * 2 ^ 56 + 2 ^ 63)

/-- `decodeRecord` with the advance-and-retry continuation bounded by an
explicit amount of fuel: one unit of fuel is spent per call, so each
segment-exhaustion retry consumes one unit.  `none` means the bound was
exhausted before the call completed. -/
def decodeRecordFuel (um : List Nat → Option Record) (cu : Nat → List Nat → Nat) :
    Nat → List FileBufReader → Int → Nat →
    Option (Except DecodeError Record × Decoder)
  | 0, _, _, _ => none
  | _ + 1, [], off, c => some (.error .eof, ⟨[], off, c⟩)
  | fuel + 1, r :: rest, off, c =>
    match readInt64 r with
    | .error .eof =>
      if rest.isEmpty then some (.error .eof, ⟨[], off, c⟩)
      else decodeRecordFuel um cu fuel rest 0 c
    | .error e => some (.error e, ⟨{ r with bytes := [] } :: rest, off, c⟩)
    | .ok (l, r') =>
      if l = 0 then
        if rest.isEmpty then some (.error .eof, ⟨[], off, c⟩)
        else decodeRecordFuel um cu fuel rest 0 c
      else some (decodeFrameBody um cu rest off c l r')

/-- `n` successive `decode` calls, collecting the records in order;
`none` as soon as one call fails. -/
def decodeList (um : List Nat → Option Record) (cu : Nat → List Nat → Nat) :
    Nat → Decoder → Option (List Record × Decoder)
  | 0, d => some ([], d)
  | n + 1, d =>
    match decodeRecord um cu d with
    | (.ok rec, d') =>
      match decodeList um cu n d' with
      | some (rs, d'') => some (rec :: rs, d'')
      | none => none
    | (.error _, _) => none

/-- Sector-grouping specification for the torn-write heuristic: byte `i`
of `data`, which sits at absolute file offset `off0 + i`, belongs to the
512-byte disk sector numbered `(off0 + i) / 512`.  `zeroSector off0 data s`
says sector `s` holds at least one byte of `data` and every byte of
`data` in sector `s` is zero. -/
def zeroSector (off0 : Nat) (data : List Nat) (s : Nat) : Prop :=
  (∃ i, i < data.length ∧ (off0 + i) / 512 = s) ∧
  (∀ i, i < data.length → (off0 + i) / 512 = s → data.getD i 0 = 0)

section UnfoldingLemmas

variable (um : List Nat → Option Record) (cu : Nat → List Nat → Nat)

theorem decodeRecordAux_nil (off : Int) (c : Nat) :
    decodeRecordAux um cu [] off c = (.error .eof, ⟨[], off, c⟩) := rfl

theorem decodeRecordAux_cons_eof (r : FileBufReader) (rest : List FileBufReader)
    (off : Int) (c : Nat) (hread : readInt64 r = .error .eof) :
    decodeRecordAux um cu (r :: rest) off c =
      if rest.isEmpty then (.error .eof, ⟨[], off, c⟩)
      else decodeRecordAux um cu rest 0 c := by
  rw [decodeRecordAux, hread]

theorem decodeRecordAux_cons_zero (r : FileBufReader) (rest : List FileBufReader)
    (off : Int) (c : Nat) (r' : FileBufReader)
    (hread : readInt64 r = .ok (0, r')) :
    decodeRecordAux um cu (r :: rest) off c =
      if rest.isEmpty then (.error .eof, ⟨[], off, c⟩)
      else decodeRecordAux um cu rest 0 c := by
  rw [decodeRecordAux, hread]
  simp

theorem decodeRecordAux_cons_ok (r : FileBufReader) (rest : List FileBufReader)
    (off : Int) (c : Nat) (l : Int) (r' : FileBufReader)
    (hread : readInt64 r = .ok (l, r')) (hl : l ≠ 0) :
    decodeRecordAux um cu (r :: rest) off c = decodeFrameBody um cu rest off c l r' := by
  rw [decodeRecordAux, hread]
  simp [hl]

theorem decodeFrameBody_over (um : List Nat → Option Record)
    (cu : Nat → List Nat → Nat) (rest : List FileBufReader) (off : Int)
    (c : Nat) (l : Int) (r' : FileBufReader) (rb pb : Int)
    (hfs : decodeFrameSize l = (rb, pb))
    (hover : rb > r'.size - off - pb) :
    decodeFrameBody um cu rest off c l r' =
      (.error (.sizeLimit rb r'.size off pb), ⟨r' :: rest, off, c⟩) := by
  simp only [decodeFrameBody, hfs]
  rw [if_pos hover]

theorem decodeFrameBody_readErr (um : List Nat → Option Record)
    (cu : Nat → List Nat → Nat) (rest : List FileBufReader) (off : Int)
    (c : Nat) (l : Int) (r' : FileBufReader) (rb pb : Int) (e : DecodeError)
    (hfs : decodeFrameSize l = (rb, pb))
    (hnover : ¬ rb > r'.size - off - pb)
    (hrf : readFull r' (rb + pb).toNat = .error e) :
    decodeFrameBody um cu rest off c l r' =
      (.error (if e = .eof then .unexpectedEOF else e),
       ⟨{ r' with bytes := [] } :: rest, off, c⟩) := by
  simp only [decodeFrameBody, hfs, if_neg hnover, hrf]

theorem decodeFrameBody_umNone (um : List Nat → Option Record)
    (cu : Nat → List Nat → Nat) (rest : List FileBufReader) (off : Int)
    (c : Nat) (l : Int) (r' : FileBufReader) (rb pb : Int)
    (data : List Nat) (r'' : FileBufReader)
    (hfs : decodeFrameSize l = (rb, pb))
    (hnover : ¬ rb > r'.size - off - pb)
    (hrf : readFull r' (rb + pb).toNat = .ok (data, r''))
    (hum : um (data.take rb.toNat) = none) :
    decodeFrameBody um cu rest off c l r' =
      (.error (if isTornEntry (r'' :: rest) off data then .unexpectedEOF
               else .unmarshalFailure),
       ⟨r'' :: rest, off, c⟩) := by
  simp only [decodeFrameBody, hfs, if_neg hnover, hrf, hum]
  split <;> simp_all

theorem decodeFrameBody_crcType (um : List Nat → Option Record)
    (cu : Nat → List Nat → Nat) (rest : List FileBufReader) (off : Int)
    (c : Nat) (l : Int) (r' : FileBufReader) (rb pb : Int)
    (data : List Nat) (r'' : FileBufReader) (rec : Record)
    (hfs : decodeFrameSize l = (rb, pb))
    (hnover : ¬ rb > r'.size - off - pb)
    (hrf : readFull r' (rb + pb).toNat = .ok (data, r''))
    (hum : um (data.take rb.toNat) = some rec)
    (htype : rec.type = crcType) :
    decodeFrameBody um cu rest off c l r' =
      (.ok rec, ⟨r'' :: rest, off + frameSizeBytes + rb + pb, c⟩) := by
  simp only [decodeFrameBody, hfs, if_neg hnover, hrf, hum]
  simp [htype]

theorem decodeFrameBody_valid (um : List Nat → Option Record)
    (cu : Nat → List Nat → Nat) (rest : List FileBufReader) (off : Int)
    (c : Nat) (l : Int) (r' : FileBufReader) (rb pb : Int)
    (data : List Nat) (r'' : FileBufReader) (rec : Record)
    (hfs : decodeFrameSize l = (rb, pb))
    (hnover : ¬ rb > r'.size - off - pb)
    (hrf : readFull r' (rb + pb).toNat = .ok (data, r''))
    (hum : um (data.take rb.toNat) = some rec)
    (htype : rec.type ≠ crcType)
    (hcrc : rec.crc = cu c rec.data) :
    decodeFrameBody um cu rest off c l r' =
      (.ok rec, ⟨r'' :: rest, off + frameSizeBytes + rb + pb, cu c rec.data⟩) := by
  simp only [decodeFrameBody, hfs, if_neg hnover, hrf, hum]
  simp [htype, hcrc]

theorem decodeFrameBody_mismatch (um : List Nat → Option Record)
    (cu : Nat → List Nat → Nat) (rest : List FileBufReader) (off : Int)
    (c : Nat) (l : Int) (r' : FileBufReader) (rb pb : Int)
    (data : List Nat) (r'' : FileBufReader) (rec : Record)
    (hfs : decodeFrameSize l = (rb, pb))
    (hnover : ¬ rb > r'.size - off - pb)
    (hrf : readFull r' (rb + pb).toNat = .ok (data, r''))
    (hum : um (data.take rb.toNat) = some rec)
    (htype : rec.type ≠ crcType)
    (hcrc : rec.crc ≠ cu c rec.data) :
    decodeFrameBody um cu rest off c l r' =
      (.error (if isTornEntry (r'' :: rest) off data then .unexpectedEOF
               else .crcMismatch),
       ⟨r'' :: rest, off, cu c rec.data⟩) := by
  simp only [decodeFrameBody, hfs, if_neg hnover, hrf, hum]
  simp only [if_pos htype, if_neg hcrc]
  split <;> simp_all

end UnfoldingLemmas

theorem uint64OfInt64_toInt64 (n : Nat) (h : n < 2 ^ 64) :
    uint64OfInt64 (toInt64 n) = n := by
  simp only [uint64OfInt64, toInt64, Nat.mod_eq_of_lt h]
  split <;> omega

theorem toInt64_neg_iff (n : Nat) (h : n < 2 ^ 64) :
    toInt64 n < 0 ↔ 2 ^ 63 ≤ n := by
  simp only [toInt64, Nat.mod_eq_of_lt h]
  split <;> omega

/-- C5: for all `recBytes < 2^56` and `padBytes ∈ [0,7]`, encoding a
header per the wire format and then applying `decodeFrameSize` recovers
exactly the pair; moreover `decodeFrameSize` is total with no error path:
every 64-bit input yields `recBytes` equal to the low 56 bits read as
unsigned, and `padBytes ∈ [0,7]` (zero when the input is non-negative). -/
theorem frame_size_roundtrip_and_total :
    (∀ recBytes padBytes : Nat, recBytes < 2 ^ 56 → padBytes ≤ 7 →
        decodeFrameSize (encodeFrameSize recBytes padBytes) =
          ((recBytes : Int), (padBytes : Int))) ∧
    (∀ l : Int, -(2 ^ 63) ≤ l → l < 2 ^ 63 →
        (decodeFrameSize l).1 = l % 2 ^ 56 ∧
        0 ≤ (decodeFrameSize l).2 ∧ (decodeFrameSize l).2 ≤ 7 ∧
        (0 ≤ l → (decodeFrameSize l).2 = 0)) := by
  constructor
  · intro rb pb hrb hpb
    by_cases hpb0 : pb = 0
    · subst hpb0
      have h64 : rb < 2 ^ 64 := by omega
      have henc : encodeFrameSize rb 0 = toInt64 rb := by simp [encodeFrameSize]
      rw [henc]
      simp only [decodeFrameSize, uint64OfInt64_toInt64 rb h64]
      have hneg : ¬ toInt64 rb < 0 := by rw [toInt64_neg_iff rb h64]; omega
      simp only [if_neg hneg]
      rw [Prod.mk.injEq]
      constructor <;> omega
    · have h64 : rb + pb * 2 ^ 56 + 2 ^ 63 < 2 ^ 64 := by omega
      have henc : encodeFrameSize rb pb = toInt64 (rb + pb * 2 ^ 56 + 2 ^ 63) := by
        simp [encodeFrameSize, hpb0]
      rw [henc]
      simp only [decodeFrameSize, uint64OfInt64_toInt64 _ h64]
      have hneg : toInt64 (rb + pb * 2 ^ 56 + 2 ^ 63) < 0 := by
        rw [toInt64_neg_iff _ h64]; omega
      simp only [if_pos hneg]
      rw [Prod.mk.injEq]
      constructor <;> omega
  · intro l hlo hhi
    refine ⟨?_, ?_, ?_, ?_⟩
    · simp only [decodeFrameSize, uint64OfInt64]
      omega
    · simp only [decodeFrameSize]
      split <;> positivity
    · simp only [decodeFrameSize, uint64OfInt64]
      split <;> omega
    · intro h0
      simp only [decodeFrameSize]
      rw [if_neg (by omega)]

/-- Witness for C5 at `recBytes = 5`, `padBytes = 3` and at the negative
header `l = -1`. -/
theorem frame_size_roundtrip_and_total_witness :
    decodeFrameSize (encodeFrameSize 5 3) = ((5 : Int), (3 : Int)) ∧
    ((decodeFrameSize (-1)).1 = (-1 : Int) % 2 ^ 56 ∧
      0 ≤ (decodeFrameSize (-1)).2 ∧ (decodeFrameSize (-1)).2 ≤ 7 ∧
      ((0 : Int) ≤ -1 → (decodeFrameSize (-1)).2 = 0)) :=
  ⟨frame_size_roundtrip_and_total.1 5 3 (by norm_num) (by norm_num),
   frame_size_roundtrip_and_total.2 (-1) (by norm_num) (by norm_num)⟩

/-- C3: a header read hitting a clean end-of-stream, or reading a header
value of exactly zero, is not an error: the decoder drops the front
segment reader, resets `lastValidOff` to 0 and retries the decode on the
next segment; if no segment readers remain (including a decoder whose
reader list is already empty), decode returns the clean end-of-log
signal `io.EOF` and no record. -/
theorem decode_segment_exhaustion (um : List Nat → Option Record)
    (cu : Nat → List Nat → Nat) (r : FileBufReader) (rest : List FileBufReader)
    (off : Int) (c : Nat)
    (hexh : readInt64 r = .error .eof ∨ ∃ r', readInt64 r = .ok (0, r')) :
    decodeRecordAux um cu [] off c = (.error .eof, ⟨[], off, c⟩) ∧
    (rest = [] →
      decodeRecordAux um cu (r :: rest) off c = (.error .eof, ⟨[], off, c⟩)) ∧
    (rest ≠ [] →
      decodeRecordAux um cu (r :: rest) off c = decodeRecordAux um cu rest 0 c) := by
  have hstep : decodeRecordAux um cu (r :: rest) off c =
      if rest.isEmpty then (.error .eof, ⟨[], off, c⟩)
      else decodeRecordAux um cu rest 0 c := by
    rcases hexh with h | ⟨r', h⟩
    · exact decodeRecordAux_cons_eof um cu r rest off c h
    · exact decodeRecordAux_cons_zero um cu r rest off c r' h
  refine ⟨rfl, ?_, ?_⟩
  · intro h
    subst h
    simpa using hstep
  · intro h
    rw [hstep, if_neg]
    simpa using h

/-- Witness for C3: an exhausted reader in front of one remaining
segment, and an exhausted reader with none remaining. -/
theorem decode_segment_exhaustion_witness :
    (readInt64 ⟨[], 0⟩ = .error .eof ∨
      ∃ r', readInt64 ⟨[], 0⟩ = .ok (0, r')) ∧
    (decodeRecordAux (fun _ => none) (fun c _ => c) [] 3 7 =
        (.error .eof, ⟨[], 3, 7⟩) ∧
      (([⟨[9], 5⟩] : List FileBufReader) = [] →
        decodeRecordAux (fun _ => none) (fun c _ => c)
          (⟨[], 0⟩ :: [⟨[9], 5⟩]) 3 7 = (.error .eof, ⟨[], 3, 7⟩)) ∧
      (([⟨[9], 5⟩] : List FileBufReader) ≠ [] →
        decodeRecordAux (fun _ => none) (fun c _ => c)
          (⟨[], 0⟩ :: [⟨[9], 5⟩]) 3 7 =
          decodeRecordAux (fun _ => none) (fun c _ => c) [⟨[9], 5⟩] 0 7)) :=
  ⟨Or.inl (by decide),
   decode_segment_exhaustion (fun _ => none) (fun c _ => c) ⟨[], 0⟩ [⟨[9], 5⟩] 3 7
     (Or.inl (by decide))⟩

/-- C2: when the frame header decodes to `recBytes` greater than
(file size) − lastValidOff − padBytes, decode returns the fatal
size-limit error immediately: no payload bytes are consumed from the
reader (the front reader is left exactly as it stood after the 8 header
bytes), `lastValidOff` is unchanged, and the returned error is the
size-limit error — never the possibly-torn signal `io.ErrUnexpectedEOF`. -/
theorem decode_size_limit (um : List Nat → Option Record)
    (cu : Nat → List Nat → Nat) (r : FileBufReader) (rest : List FileBufReader)
    (off : Int) (c : Nat) (l : Int) (r' : FileBufReader)
    (hread : readInt64 r = .ok (l, r')) (hl : l ≠ 0)
    (hover : (decodeFrameSize l).1 > r'.size - off - (decodeFrameSize l).2) :
    decodeRecordAux um cu (r :: rest) off c =
      (.error (.sizeLimit (decodeFrameSize l).1 r'.size off (decodeFrameSize l).2),
       ⟨r' :: rest, off, c⟩) ∧
    DecodeError.sizeLimit (decodeFrameSize l).1 r'.size off (decodeFrameSize l).2 ≠
      .unexpectedEOF := by
  refine ⟨?_, by intro h; cases h⟩
  rw [decodeRecordAux_cons_ok um cu r rest off c l r' hread hl]
  exact decodeFrameBody_over um cu rest off c l r' _ _ rfl hover

/-- Witness for C2: a header declaring 100 record bytes in a 10-byte
file. -/
theorem decode_size_limit_witness :
    decodeRecordAux (fun _ => none) (fun c _ => c)
        [⟨[100, 0, 0, 0, 0, 0, 0, 0], 10⟩] 0 0 =
      (.error (.sizeLimit (decodeFrameSize 100).1 10 0 (decodeFrameSize 100).2),
       ⟨[⟨[], 10⟩], 0, 0⟩) ∧
    DecodeError.sizeLimit (decodeFrameSize 100).1 10 0 (decodeFrameSize 100).2 ≠
      .unexpectedEOF :=
  decode_size_limit (fun _ => none) (fun c _ => c) ⟨[100, 0, 0, 0, 0, 0, 0, 0], 10⟩
    [] 0 0 100 ⟨[], 10⟩ (by decide) (by decide) (by decide)

/-- C8: when reading the `recBytes + padBytes` payload bytes falls short
because the stream is exhausted, decode returns the possibly-torn signal
`io.ErrUnexpectedEOF` rather than a generic end-of-file/short-read
error: a clean `io.EOF` from the full read (zero bytes available) is
reclassified to `io.ErrUnexpectedEOF`, and a partial read yields the
same signal. -/
theorem decode_short_read (um : List Nat → Option Record)
    (cu : Nat → List Nat → Nat) (r : FileBufReader) (rest : List FileBufReader)
    (off : Int) (c : Nat) (l : Int) (r' : FileBufReader)
    (hread : readInt64 r = .ok (l, r')) (hl : l ≠ 0)
    (hnover : ¬ (decodeFrameSize l).1 > r'.size - off - (decodeFrameSize l).2)
    (hshort : r'.bytes.length <
      ((decodeFrameSize l).1 + (decodeFrameSize l).2).toNat) :
    (decodeRecordAux um cu (r :: rest) off c).1 = .error .unexpectedEOF := by
  rw [decodeRecordAux_cons_ok um cu r rest off c l r' hread hl]
  by_cases hz : r'.bytes.length = 0
  · -- zero bytes available: ReadFull yields io.EOF, reclassified
    have hrf : readFull r' ((decodeFrameSize l).1 + (decodeFrameSize l).2).toNat =
        .error .eof := by
      rw [readFull, if_neg (by omega), if_pos hz]
    rw [decodeFrameBody_readErr um cu rest off c l r' _ _ .eof rfl hnover hrf]
    rfl
  · -- partial read: ReadFull yields io.ErrUnexpectedEOF
    have hrf : readFull r' ((decodeFrameSize l).1 + (decodeFrameSize l).2).toNat =
        .error .unexpectedEOF := by
      rw [readFull, if_neg (by omega), if_neg hz]
    rw [decodeFrameBody_readErr um cu rest off c l r' _ _ .unexpectedEOF rfl
      hnover hrf]
    rfl

/-- Witness for C8: a header declaring 4 record bytes with only 2 payload
bytes left in a 20-byte file. -/
theorem decode_short_read_witness :
    readInt64 ⟨[4, 0, 0, 0, 0, 0, 0, 0, 7, 7], 20⟩ = .ok (4, ⟨[7, 7], 20⟩) ∧
    (decodeRecordAux (fun _ => none) (fun c _ => c)
        [⟨[4, 0, 0, 0, 0, 0, 0, 0, 7, 7], 20⟩] 0 0).1 = .error .unexpectedEOF :=
  ⟨by decide,
   decode_short_read (fun _ => none) (fun c _ => c)
     ⟨[4, 0, 0, 0, 0, 0, 0, 0, 7, 7], 20⟩ [] 0 0 4 ⟨[7, 7], 20⟩
     (by decide) (by decide) (by decide) (by decide)⟩

/-- C6: on a successful decode of a frame with sizes
`(recBytes, padBytes)`, `lastValidOff` advances by exactly
`8 + recBytes + padBytes`; on a decode call that fails inside the
current segment (size-limit violation, read failure, unmarshal failure
or checksum mismatch), `lastValidOff` is unchanged — so `lastOffset`
reports the offset immediately following the last fully validated
record. -/
theorem decode_offset_frame_effect (um : List Nat → Option Record)
    (cu : Nat → List Nat → Nat) (r : FileBufReader) (rest : List FileBufReader)
    (off : Int) (c : Nat) (l : Int) (r' : FileBufReader)
    (hread : readInt64 r = .ok (l, r')) (hl : l ≠ 0) :
    (∀ e, (decodeRecordAux um cu (r :: rest) off c).1 = .error e →
        lastOffset (decodeRecordAux um cu (r :: rest) off c).2 = off) ∧
    (∀ rec, (decodeRecordAux um cu (r :: rest) off c).1 = .ok rec →
        lastOffset (decodeRecordAux um cu (r :: rest) off c).2 =
          off + frameSizeBytes + (decodeFrameSize l).1 + (decodeFrameSize l).2) := by
  rw [decodeRecordAux_cons_ok um cu r rest off c l r' hread hl]
  by_cases hover : (decodeFrameSize l).1 > r'.size - off - (decodeFrameSize l).2
  · rw [decodeFrameBody_over um cu rest off c l r' _ _ rfl hover]
    exact ⟨fun _ _ => rfl, fun rec h => by simp at h⟩
  · cases hrf : readFull r' ((decodeFrameSize l).1 + (decodeFrameSize l).2).toNat with
    | error e =>
      rw [decodeFrameBody_readErr um cu rest off c l r' _ _ e rfl hover hrf]
      exact ⟨fun _ _ => rfl, fun rec h => by simp at h⟩
    | ok p =>
      obtain ⟨data, r''⟩ := p
      cases hum : um (data.take (decodeFrameSize l).1.toNat) with
      | none =>
        rw [decodeFrameBody_umNone um cu rest off c l r' _ _ data r'' rfl hover
          hrf hum]
        exact ⟨fun _ _ => rfl, fun rec h => by simp at h⟩
      | some rec =>
        by_cases htype : rec.type = crcType
        · rw [decodeFrameBody_crcType um cu rest off c l r' _ _ data r'' rec rfl
            hover hrf hum htype]
          exact ⟨fun e h => by simp at h, fun _ _ => rfl⟩
        · by_cases hcrc : rec.crc = cu c rec.data
          · rw [decodeFrameBody_valid um cu rest off c l r' _ _ data r'' rec rfl
              hover hrf hum htype hcrc]
            exact ⟨fun e h => by simp at h, fun _ _ => rfl⟩
          · rw [decodeFrameBody_mismatch um cu rest off c l r' _ _ data r'' rec rfl
              hover hrf hum htype hcrc]
            exact ⟨fun _ _ => rfl, fun rec' h => by simp at h⟩

/-- Witness for C6: a successful decode of a 2-byte record advances the
offset by `8 + 2 + 0`. -/
theorem decode_offset_frame_effect_witness :
    readInt64 ⟨[2, 0, 0, 0, 0, 0, 0, 0, 7, 7, 9], 20⟩ = .ok (2, ⟨[7, 7, 9], 20⟩) ∧
    lastOffset (decodeRecordAux (fun bs => some ⟨1, 2, bs⟩)
        (fun c ds => c + ds.length)
        [⟨[2, 0, 0, 0, 0, 0, 0, 0, 7, 7, 9], 20⟩] 0 0).2 =
      0 + frameSizeBytes + (decodeFrameSize 2).1 + (decodeFrameSize 2).2 :=
  ⟨by decide,
   (decode_offset_frame_effect (fun bs => some ⟨1, 2, bs⟩)
       (fun c ds => c + ds.length) ⟨[2, 0, 0, 0, 0, 0, 0, 0, 7, 7, 9], 20⟩ [] 0 0
       2 ⟨[7, 7, 9], 20⟩ (by decide) (by decide)).2
     ⟨1, 2, [7, 7]⟩ (by decide)⟩

/-- C4: for a record successfully unmarshalled by decode, the checksum
control type (`crcType`) is exempt: its payload is not written into the
accumulator and no validation is performed (decode succeeds with the
accumulator unchanged); for every other record type the record's `Data`
is fed into the accumulator and the declared checksum is validated
against the accumulated sum, decode returning an error (torn or fatal
per the detector) exactly when they mismatch. -/
theorem decode_crc_type_handling (um : List Nat → Option Record)
    (cu : Nat → List Nat → Nat) (r : FileBufReader) (rest : List FileBufReader)
    (off : Int) (c : Nat) (l : Int) (r' : FileBufReader) (data : List Nat)
    (r'' : FileBufReader) (rec : Record)
    (hread : readInt64 r = .ok (l, r')) (hl : l ≠ 0)
    (hnover : ¬ (decodeFrameSize l).1 > r'.size - off - (decodeFrameSize l).2)
    (hrf : readFull r' ((decodeFrameSize l).1 + (decodeFrameSize l).2).toNat =
      .ok (data, r''))
    (hum : um (data.take (decodeFrameSize l).1.toNat) = some rec) :
    (rec.type = crcType →
      (decodeRecordAux um cu (r :: rest) off c).1 = .ok rec ∧
      (decodeRecordAux um cu (r :: rest) off c).2.crc = c) ∧
    (rec.type ≠ crcType →
      (decodeRecordAux um cu (r :: rest) off c).2.crc = cu c rec.data ∧
      ((decodeRecordAux um cu (r :: rest) off c).1 = .ok rec ↔
        rec.crc = cu c rec.data) ∧
      (rec.crc ≠ cu c rec.data →
        (decodeRecordAux um cu (r :: rest) off c).1 =
          .error (if isTornEntry (r'' :: rest) off data then .unexpectedEOF
                  else .crcMismatch))) := by
  rw [decodeRecordAux_cons_ok um cu r rest off c l r' hread hl]
  constructor
  · intro htype
    rw [decodeFrameBody_crcType um cu rest off c l r' _ _ data r'' rec rfl
      hnover hrf hum htype]
    exact ⟨rfl, rfl⟩
  · intro htype
    by_cases hcrc : rec.crc = cu c rec.data
    · rw [decodeFrameBody_valid um cu rest off c l r' _ _ data r'' rec rfl
        hnover hrf hum htype hcrc]
      exact ⟨rfl, ⟨fun _ => hcrc, fun _ => rfl⟩, fun hne => absurd hcrc hne⟩
    · rw [decodeFrameBody_mismatch um cu rest off c l r' _ _ data r'' rec rfl
        hnover hrf hum htype hcrc]
      refine ⟨rfl, ⟨fun h => ?_, fun h => absurd h hcrc⟩, fun _ => rfl⟩
      simp at h

/-- Witness for C4: a checksum control record with an arbitrary (wrong)
declared checksum still decodes successfully and leaves the accumulator
untouched. -/
theorem decode_crc_type_handling_witness :
    ((4 : Int) = crcType) ∧
    (decodeRecordAux (fun bs => some ⟨4, 99, bs⟩) (fun c ds => c + ds.length)
        [⟨[2, 0, 0, 0, 0, 0, 0, 0, 7, 7, 9], 20⟩] 0 0).1 = .ok ⟨4, 99, [7, 7]⟩ ∧
    (decodeRecordAux (fun bs => some ⟨4, 99, bs⟩) (fun c ds => c + ds.length)
        [⟨[2, 0, 0, 0, 0, 0, 0, 0, 7, 7, 9], 20⟩] 0 0).2.crc = 0 :=
  ⟨by decide,
   (decode_crc_type_handling (fun bs => some ⟨4, 99, bs⟩)
       (fun c ds => c + ds.length) ⟨[2, 0, 0, 0, 0, 0, 0, 0, 7, 7, 9], 20⟩ [] 0 0
       2 ⟨[7, 7, 9], 20⟩ [7, 7] ⟨[9], 20⟩ ⟨4, 99, [7, 7]⟩
       (by decide) (by decide) (by decide) (by decide) (by decide)).1 rfl⟩

/-- C10: decode errors are not atomic with respect to the checksum
accumulator: on a checksum-validation failure of a non-control record the
accumulator has already absorbed the record's `Data` and is not rolled
back (`lastCRC` afterward reflects the rejected record's bytes), while a
call failing earlier — size limit, short read, or unmarshal failure —
leaves the accumulator unchanged. -/
theorem decode_crc_accumulator_effect (um : List Nat → Option Record)
    (cu : Nat → List Nat → Nat) (r : FileBufReader) (rest : List FileBufReader)
    (off : Int) (c : Nat) (l : Int) (r' : FileBufReader)
    (hread : readInt64 r = .ok (l, r')) (hl : l ≠ 0) :
    ((decodeFrameSize l).1 > r'.size - off - (decodeFrameSize l).2 →
      lastCRC (decodeRecordAux um cu (r :: rest) off c).2 = c) ∧
    (∀ e, ¬ (decodeFrameSize l).1 > r'.size - off - (decodeFrameSize l).2 →
      readFull r' ((decodeFrameSize l).1 + (decodeFrameSize l).2).toNat =
        .error e →
      lastCRC (decodeRecordAux um cu (r :: rest) off c).2 = c) ∧
    (∀ data r'', ¬ (decodeFrameSize l).1 > r'.size - off - (decodeFrameSize l).2 →
      readFull r' ((decodeFrameSize l).1 + (decodeFrameSize l).2).toNat =
        .ok (data, r'') →
      um (data.take (decodeFrameSize l).1.toNat) = none →
      lastCRC (decodeRecordAux um cu (r :: rest) off c).2 = c) ∧
    (∀ data r'' rec,
      ¬ (decodeFrameSize l).1 > r'.size - off - (decodeFrameSize l).2 →
      readFull r' ((decodeFrameSize l).1 + (decodeFrameSize l).2).toNat =
        .ok (data, r'') →
      um (data.take (decodeFrameSize l).1.toNat) = some rec →
      rec.type ≠ crcType → rec.crc ≠ cu c rec.data →
      (∃ e, (decodeRecordAux um cu (r :: rest) off c).1 = .error e) ∧
      lastCRC (decodeRecordAux um cu (r :: rest) off c).2 = cu c rec.data) := by
  rw [decodeRecordAux_cons_ok um cu r rest off c l r' hread hl]
  refine ⟨?_, ?_, ?_, ?_⟩
  · intro hover
    rw [decodeFrameBody_over um cu rest off c l r' _ _ rfl hover]
    rfl
  · intro e hnover hrf
    rw [decodeFrameBody_readErr um cu rest off c l r' _ _ e rfl hnover hrf]
    rfl
  · intro data r'' hnover hrf hum
    rw [decodeFrameBody_umNone um cu rest off c l r' _ _ data r'' rfl hnover
      hrf hum]
    rfl
  · intro data r'' rec hnover hrf hum htype hcrc
    rw [decodeFrameBody_mismatch um cu rest off c l r' _ _ data r'' rec rfl
      hnover hrf hum htype hcrc]
    exact ⟨⟨_, rfl⟩, rfl⟩

/-- Witness for C10: a record whose declared checksum 5 disagrees with
the accumulated value 2; the failed decode leaves `lastCRC` at 2, the
value absorbed from the rejected record's bytes. -/
theorem decode_crc_accumulator_effect_witness :
    (∃ e, (decodeRecordAux (fun bs => some ⟨1, 5, bs⟩)
        (fun c ds => c + ds.length)
        [⟨[2, 0, 0, 0, 0, 0, 0, 0, 7, 7, 9], 20⟩] 0 0).1 = .error e) ∧
    lastCRC (decodeRecordAux (fun bs => some ⟨1, 5, bs⟩)
        (fun c ds => c + ds.length)
        [⟨[2, 0, 0, 0, 0, 0, 0, 0, 7, 7, 9], 20⟩] 0 0).2 =
      (fun c ds => c + ds.length) 0 (Record.data ⟨1, 5, [7, 7]⟩) :=
  (decode_crc_accumulator_effect (fun bs => some ⟨1, 5, bs⟩)
      (fun c ds => c + ds.length) ⟨[2, 0, 0, 0, 0, 0, 0, 0, 7, 7, 9], 20⟩ [] 0 0
      2 ⟨[7, 7, 9], 20⟩ (by decide) (by decide)).2.2.2 [7, 7] ⟨[9], 20⟩
    ⟨1, 5, [7, 7]⟩ (by decide) (by decide) (by decide) (by decide) (by decide)

/-- C9: every decode call terminates for every finite list of segment
readers: each segment-exhaustion step strictly shrinks the reader list
before the retry, so with any amount of fuel exceeding the initial
segment count the fuel-bounded decode completes and agrees with
`decodeRecordAux`, even across arbitrarily long runs of empty
preallocated segments. -/
theorem decode_terminates_within_segment_count (um : List Nat → Option Record)
    (cu : Nat → List Nat → Nat) :
    ∀ fuel brs off c, brs.length < fuel →
      decodeRecordFuel um cu fuel brs off c =
        some (decodeRecordAux um cu brs off c) := by
  intro fuel
  induction fuel with
  | zero =>
    intro brs off c h
    exact absurd h (by omega)
  | succ n ih =>
    intro brs off c h
    cases brs with
    | nil => rfl
    | cons r rest =>
      have hlen : rest.length < n := by
        simp only [List.length_cons] at h
        omega
      cases hr : readInt64 r with
      | error e =>
        cases e with
        | eof =>
          simp only [decodeRecordFuel, decodeRecordAux, hr]
          cases rest with
          | nil => simp [List.isEmpty]
          | cons r2 rest2 =>
            simp only [List.isEmpty, Bool.false_eq_true, if_false]
            exact ih (r2 :: rest2) 0 c hlen
        | unexpectedEOF => simp [decodeRecordFuel, decodeRecordAux, hr]
        | sizeLimit a b c' d' => simp [decodeRecordFuel, decodeRecordAux, hr]
        | unmarshalFailure => simp [decodeRecordFuel, decodeRecordAux, hr]
        | crcMismatch => simp [decodeRecordFuel, decodeRecordAux, hr]
      | ok p =>
        obtain ⟨l, r'⟩ := p
        by_cases hl : l = 0
        · subst hl
          simp only [decodeRecordFuel, decodeRecordAux, hr, if_pos rfl]
          cases rest with
          | nil => simp [List.isEmpty]
          | cons r2 rest2 =>
            simp only [List.isEmpty, Bool.false_eq_true, if_false]
            exact ih (r2 :: rest2) 0 c hlen
        · simp [decodeRecordFuel, decodeRecordAux, hr, hl]

/-- Witness for C9: two empty preallocated segments decode to end-of-log
with fuel 3 = segment count + 1. -/
theorem decode_terminates_within_segment_count_witness :
    (([⟨[], 5⟩, ⟨[], 6⟩] : List FileBufReader).length < 3) ∧
    decodeRecordFuel (fun _ => none) (fun c _ => c) 3 [⟨[], 5⟩, ⟨[], 6⟩] 1 2 =
      some (decodeRecordAux (fun _ => none) (fun c _ => c) [⟨[], 5⟩, ⟨[], 6⟩] 1 2) :=
  ⟨by decide,
   decode_terminates_within_segment_count (fun _ => none) (fun c _ => c) 3
     [⟨[], 5⟩, ⟨[], 6⟩] 1 2 (by decide)⟩

theorem decodeRecordAux_cons_err (um : List Nat → Option Record)
    (cu : Nat → List Nat → Nat) (r : FileBufReader) (rest : List FileBufReader)
    (off : Int) (c : Nat) (e : DecodeError)
    (hread : readInt64 r = .error e) (he : e ≠ .eof) :
    decodeRecordAux um cu (r :: rest) off c =
      (.error e, ⟨{ r with bytes := [] } :: rest, off, c⟩) := by
  rw [decodeRecordAux, hread]
  cases e with
  | eof => exact absurd rfl he
  | unexpectedEOF => rfl
  | sizeLimit a b c' d' => rfl
  | unmarshalFailure => rfl
  | crcMismatch => rfl

theorem decodeFrameBody_ok_crc (um : List Nat → Option Record)
    (cu : Nat → List Nat → Nat) (rest : List FileBufReader) (off : Int)
    (c : Nat) (l : Int) (r' : FileBufReader) (rec : Record) (d' : Decoder)
    (h : decodeFrameBody um cu rest off c l r' = (.ok rec, d')) :
    (rec.type ≠ crcType → rec.crc = cu c rec.data ∧ d'.crc = cu c rec.data) ∧
    (rec.type = crcType → d'.crc = c) := by
  by_cases hover : (decodeFrameSize l).1 > r'.size - off - (decodeFrameSize l).2
  · rw [decodeFrameBody_over um cu rest off c l r' _ _ rfl hover] at h
    simp at h
  · cases hrf : readFull r' ((decodeFrameSize l).1 + (decodeFrameSize l).2).toNat with
    | error e =>
      rw [decodeFrameBody_readErr um cu rest off c l r' _ _ e rfl hover hrf] at h
      simp at h
    | ok p =>
      obtain ⟨data, r''⟩ := p
      cases hum : um (data.take (decodeFrameSize l).1.toNat) with
      | none =>
        rw [decodeFrameBody_umNone um cu rest off c l r' _ _ data r'' rfl hover
          hrf hum] at h
        simp at h
      | some rec' =>
        by_cases htype : rec'.type = crcType
        · rw [decodeFrameBody_crcType um cu rest off c l r' _ _ data r'' rec' rfl
            hover hrf hum htype] at h
          simp only [Prod.mk.injEq, Except.ok.injEq] at h
          obtain ⟨rfl, rfl⟩ := h
          exact ⟨fun hne => absurd htype hne, fun _ => rfl⟩
        · by_cases hcrc : rec'.crc = cu c rec'.data
          · rw [decodeFrameBody_valid um cu rest off c l r' _ _ data r'' rec' rfl
              hover hrf hum htype hcrc] at h
            simp only [Prod.mk.injEq, Except.ok.injEq] at h
            obtain ⟨rfl, rfl⟩ := h
            exact ⟨fun _ => ⟨hcrc, rfl⟩, fun ht => absurd ht htype⟩
          · rw [decodeFrameBody_mismatch um cu rest off c l r' _ _ data r'' rec'
              rfl hover hrf hum htype hcrc] at h
            simp at h

/-- A successful decode of a non-control record validates against (and
leaves in the accumulator) the chain value `cu c rec.data`, regardless of
how many exhausted segments were skipped on the way; a successful decode
of a control record leaves the accumulator unchanged. -/
theorem decodeRecordAux_ok_crc (um : List Nat → Option Record)
    (cu : Nat → List Nat → Nat) :
    ∀ brs off c rec d', decodeRecordAux um cu brs off c = (.ok rec, d') →
      (rec.type ≠ crcType → rec.crc = cu c rec.data ∧ d'.crc = cu c rec.data) ∧
      (rec.type = crcType → d'.crc = c) := by
  intro brs
  induction brs with
  | nil =>
    intro off c rec d' h
    rw [decodeRecordAux_nil] at h
    simp at h
  | cons r rest ih =>
    intro off c rec d' h
    cases hr : readInt64 r with
    | error e =>
      by_cases he : e = .eof
      · subst he
        rw [decodeRecordAux_cons_eof um cu r rest off c hr] at h
        cases rest with
        | nil => simp at h
        | cons r2 rest2 => exact ih 0 c rec d' (by simpa using h)
      · rw [decodeRecordAux_cons_err um cu r rest off c e hr he] at h
        simp at h
    | ok p =>
      obtain ⟨l, r'⟩ := p
      by_cases hl : l = 0
      · subst hl
        rw [decodeRecordAux_cons_zero um cu r rest off c r' hr] at h
        cases rest with
        | nil => simp at h
        | cons r2 rest2 => exact ih 0 c rec d' (by simpa using h)
      · rw [decodeRecordAux_cons_ok um cu r rest off c l r' hr hl] at h
        exact decodeFrameBody_ok_crc um cu rest off c l r' rec d' h

theorem decodeList_crc (um : List Nat → Option Record)
    (cu : Nat → List Nat → Nat) :
    ∀ n d0 rs d', decodeList um cu n d0 = some (rs, d') →
      (∀ r ∈ rs, r.type ≠ crcType) →
      (∀ i (hi : i < rs.length),
        (rs.get ⟨i, hi⟩).crc =
          List.foldl cu d0.crc ((rs.take (i + 1)).map Record.data)) ∧
      d'.crc = List.foldl cu d0.crc (rs.map Record.data) := by
  intro n
  induction n with
  | zero =>
    intro d0 rs d' h hnc
    simp only [decodeList, Option.some.injEq, Prod.mk.injEq] at h
    obtain ⟨rfl, rfl⟩ := h
    constructor
    · intro i hi
      simp at hi
    · simp
  | succ n ih =>
    intro d0 rs d' h hnc
    rw [decodeList] at h
    cases hdec : decodeRecord um cu d0 with
    | mk out d1 =>
      rw [hdec] at h
      cases out with
      | error e => simp at h
      | ok rec =>
        cases hrest : decodeList um cu n d1 with
        | none => simp [hrest] at h
        | some p =>
          obtain ⟨rs', d''⟩ := p
          simp only [hrest, Option.some.injEq, Prod.mk.injEq] at h
          obtain ⟨rfl, rfl⟩ := h
          have hstep := decodeRecordAux_ok_crc um cu d0.brs d0.lastValidOff
            d0.crc rec d1 hdec
          have hne : rec.type ≠ crcType := hnc rec (by simp)
          obtain ⟨hcrc1, hd1⟩ := hstep.1 hne
          have ihh := ih d1 rs' d'' hrest (fun r hr => hnc r (by simp [hr]))
          refine ⟨?_, ?_⟩
          · intro i hi
            cases i with
            | zero =>
              simp only [List.get, List.take, List.map, List.foldl]
              rw [hcrc1]
            | succ j =>
              have hj : j < rs'.length := by
                simp only [List.length_cons] at hi
                omega
              have := ihh.1 j hj
              simp only [List.get, List.take_succ_cons, List.map_cons,
                List.foldl_cons]
              rw [← hd1]
              exact this
          · simp only [List.map_cons, List.foldl_cons]
            rw [← hd1]
            exact ihh.2

/-- C7: the reseed operation `updateCRC` replaces the accumulator with a
fresh one initialized from the given start value, and the `N` payload
(non-control) records decoded after a reseed to the control record's
declared value all validate against the chain seeded by that value — the
`i`-th record's declared checksum equals the chain folded from the seed
over the data of records `0..i` — rather than a zero-initialized chain. -/
theorem crc_chain_reseed (um : List Nat → Option Record)
    (cu : Nat → List Nat → Nat) (d : Decoder) (seed : Nat) :
    lastCRC (updateCRC d seed) = seed ∧
    (∀ n rs d', decodeList um cu n (updateCRC d seed) = some (rs, d') →
      (∀ r ∈ rs, r.type ≠ crcType) →
      (∀ i (hi : i < rs.length),
        (rs.get ⟨i, hi⟩).crc =
          List.foldl cu seed ((rs.take (i + 1)).map Record.data)) ∧
      lastCRC d' = List.foldl cu seed (rs.map Record.data)) := by
  refine ⟨rfl, ?_⟩
  intro n rs d' h hnc
  exact decodeList_crc um cu n (updateCRC d seed) rs d' h hnc

/-- Witness for C7: after reseeding to 5, a record carrying checksum 7 =
chain(5, two bytes) decodes successfully and `lastCRC` moves along the
seeded chain. -/
theorem crc_chain_reseed_witness :
    lastCRC (updateCRC ⟨[⟨[2, 0, 0, 0, 0, 0, 0, 0, 7, 7, 9], 20⟩], 0, 0⟩ 5) = 5 ∧
    ((List.get [({ type := 1, crc := 7, data := [7, 7] } : Record)]
        ⟨0, by norm_num⟩).crc =
      List.foldl (fun c ds => c + ds.length) 5
        (([({ type := 1, crc := 7, data := [7, 7] } : Record)].take 1).map
          Record.data) ∧
     lastCRC ⟨[⟨[9], 20⟩], 10, 7⟩ =
      List.foldl (fun c ds => c + ds.length) 5
        ([({ type := 1, crc := 7, data := [7, 7] } : Record)].map Record.data)) :=
  ⟨(crc_chain_reseed (fun bs => some ⟨1, 7, bs⟩) (fun c ds => c + ds.length)
      ⟨[⟨[2, 0, 0, 0, 0, 0, 0, 0, 7, 7, 9], 20⟩], 0, 0⟩ 5).1,
   (by exact
     ⟨((crc_chain_reseed (fun bs => some ⟨1, 7, bs⟩) (fun c ds => c + ds.length)
          ⟨[⟨[2, 0, 0, 0, 0, 0, 0, 0, 7, 7, 9], 20⟩], 0, 0⟩ 5).2 1
          [⟨1, 7, [7, 7]⟩] ⟨[⟨[9], 20⟩], 10, 7⟩ (by decide) (by decide)).1 0
        (by norm_num),
      ((crc_chain_reseed (fun bs => some ⟨1, 7, bs⟩) (fun c ds => c + ds.length)
          ⟨[⟨[2, 0, 0, 0, 0, 0, 0, 0, 7, 7, 9], 20⟩], 0, 0⟩ 5).2 1
          [⟨1, 7, [7, 7]⟩] ⟨[⟨[9], 20⟩], 10, 7⟩ (by decide) (by decide)).2⟩)⟩

theorem getD_take_lt (l : List Nat) (c i : Nat) (h : i < c) :
    (l.take c).getD i 0 = l.getD i 0 := by
  simp [List.getD_eq_getElem?_getD, List.getElem?_take, h]

theorem getD_drop_add (l : List Nat) (c j : Nat) :
    (l.drop c).getD j 0 = l.getD (c + j) 0 := by
  simp [List.getD_eq_getElem?_getD, List.getElem?_drop]

theorem allZero_iff (xs : List Nat) :
    allZero xs = true ↔ ∀ i, i < xs.length → xs.getD i 0 = 0 := by
  induction xs with
  | nil => simp [allZero]
  | cons a l ih =>
    rw [allZero, List.all_cons, Bool.and_eq_true, ← allZero]
    constructor
    · rintro ⟨ha, hl⟩ i hi
      cases i with
      | zero => simpa using ha
      | succ j =>
        rw [List.getD_cons_succ]
        exact ih.mp hl j (by simpa using hi)
    · intro h
      refine ⟨?_, ih.mpr ?_⟩
      · have := h 0 (by simp)
        simpa using this
      · intro j hj
        have := h (j + 1) (by simpa using hj)
        simpa using this

theorem splitChunksGo_nil (fuel : Nat) (off : Int) :
    splitChunksGo fuel off [] = [] := by
  cases fuel with
  | zero => rfl
  | succ n => simp [splitChunksGo]

theorem chunkLen_pos (off : Int) (n : Nat) (hn : 0 < n) :
    0 < min (minSectorSize - Int.tmod off minSectorSize).toNat n := by
  have h1 : Int.tmod off minSectorSize < minSectorSize :=
    Int.tmod_lt_of_pos off (by decide)
  have h2 : (0 : Int) < minSectorSize - Int.tmod off minSectorSize := by
    simp only [minSectorSize] at h1 ⊢
    omega
  simp only [minSectorSize] at h2 ⊢
  omega

theorem splitChunksGo_succ (fuel : Nat) (off : Int) (data : List Nat) :
    splitChunksGo (fuel + 1) off data =
      if data.length = 0 then []
      else
        data.take (min (minSectorSize - Int.tmod off minSectorSize).toNat
            data.length) ::
          splitChunksGo fuel
            (off + (min (minSectorSize - Int.tmod off minSectorSize).toNat
              data.length : Nat))
            (data.drop (min (minSectorSize - Int.tmod off minSectorSize).toNat
              data.length)) := rfl

theorem splitChunksGo_fuel_eq :
    ∀ fuel fuel' (off : Int) (data : List Nat), data.length ≤ fuel →
      data.length ≤ fuel' →
      splitChunksGo fuel off data = splitChunksGo fuel' off data := by
  intro fuel
  induction fuel with
  | zero =>
    intro fuel' off data h h'
    have hnil : data = [] := List.length_eq_zero.mp (by omega)
    subst hnil
    rw [splitChunksGo_nil, splitChunksGo_nil]
  | succ n ih =>
    intro fuel' off data h h'
    cases hdata : data with
    | nil => rw [splitChunksGo_nil, splitChunksGo_nil]
    | cons b bs =>
      subst hdata
      cases fuel' with
      | zero =>
        simp only [List.length_cons] at h'
        omega
      | succ m =>
        rw [splitChunksGo_succ, splitChunksGo_succ]
        have hlen : (b :: bs).length ≠ 0 := by simp
        rw [if_neg hlen, if_neg hlen]
        congr 1
        have hpos := chunkLen_pos off (b :: bs).length (by simp)
        apply ih
        · simp only [List.length_drop, List.length_cons] at h ⊢
          omega
        · simp only [List.length_drop, List.length_cons] at h' ⊢
          omega

theorem splitChunks_cons (off : Int) (data : List Nat) (c : Nat)
    (hd : data.length ≠ 0)
    (hc : c = min (minSectorSize - Int.tmod off minSectorSize).toNat
      data.length) :
    splitChunks off data =
      data.take c :: splitChunks (off + (c : Int)) (data.drop c) := by
  obtain ⟨k, hk⟩ : ∃ k, data.length = k + 1 := ⟨data.length - 1, by omega⟩
  have h1 : splitChunks off data = splitChunksGo (k + 1) off data := by
    rw [splitChunks, hk]
  rw [h1, splitChunksGo_succ, if_neg hd, ← hc]
  congr 1
  have hpos : 0 < c := by
    rw [hc]
    exact chunkLen_pos off data.length (by omega)
  rw [splitChunks]
  apply splitChunksGo_fuel_eq
  · simp only [List.length_drop]
    omega
  · exact le_refl _

theorem tmod_chunkLen_natCast (off0 : Nat) :
    (minSectorSize - Int.tmod (off0 : Int) minSectorSize).toNat =
      512 - off0 % 512 := by
  have h1 : Int.tmod (off0 : Int) minSectorSize = ((off0 % 512 : Nat) : Int) := by
    rw [Int.tmod_eq_emod (Int.natCast_nonneg off0) (by norm_num [minSectorSize])]
    simp only [minSectorSize]
    push_cast
    rfl
  rw [h1]
  simp only [minSectorSize]
  omega

/-- The first chunk cut by the sector-splitting loop is all-zero exactly
when the first disk sector touched by the data is a zero sector. -/
theorem zeroSector_head (off0 : Nat) (data : List Nat) (hd : data.length ≠ 0)
    (c : Nat) (hc : c = min (512 - off0 % 512) data.length) :
    (allZero (data.take c) = true ↔ zeroSector off0 data (off0 / 512)) := by
  have hmod : off0 % 512 < 512 := Nat.mod_lt _ (by norm_num)
  have hc1 : 1 ≤ c := by omega
  have hcle : c ≤ data.length := by omega
  have hca : c ≤ 512 - off0 % 512 := by omega
  have hF1 : ∀ i, i < c → (off0 + i) / 512 = off0 / 512 := by
    intro i hi
    omega
  have hF2 : ∀ i, c ≤ i → i < data.length → off0 / 512 < (off0 + i) / 512 := by
    intro i hi hilen
    have h1 : 512 - off0 % 512 ≤ i := by omega
    omega
  have hlentake : (data.take c).length = c := by
    rw [List.length_take]
    exact inf_eq_left.mpr hcle
  rw [allZero_iff, hlentake]
  constructor
  · intro h
    refine ⟨⟨0, by omega, hF1 0 hc1⟩, ?_⟩
    intro i hilen hsec
    have hic : i < c := by
      by_contra hge
      have := hF2 i (by omega) hilen
      omega
    have h0 := h i hic
    rwa [getD_take_lt data c i hic] at h0
  · rintro ⟨-, hz⟩ i hi
    rw [getD_take_lt data c i hi]
    exact hz i (by omega) (hF1 i hi)

/-- The chunks after the first correspond exactly to the zero sectors of
`data` other than the first sector touched. -/
theorem zeroSector_tail (off0 : Nat) (data : List Nat)
    (c : Nat) (hc : c = min (512 - off0 % 512) data.length) (s : Nat) :
    zeroSector (off0 + c) (data.drop c) s ↔
      s ≠ off0 / 512 ∧ zeroSector off0 data s := by
  have hmod : off0 % 512 < 512 := Nat.mod_lt _ (by norm_num)
  have hcle : c ≤ data.length := by omega
  have hca : c ≤ 512 - off0 % 512 := by omega
  have hF1 : ∀ i, i < c → (off0 + i) / 512 = off0 / 512 := by
    intro i hi
    omega
  have hF2 : ∀ i, c ≤ i → i < data.length → off0 / 512 < (off0 + i) / 512 := by
    intro i hi hilen
    have h1 : 512 - off0 % 512 ≤ i := by omega
    omega
  have hlend : (data.drop c).length = data.length - c := List.length_drop c data
  constructor
  · rintro ⟨⟨j, hj, hjsec⟩, hzero⟩
    rw [hlend] at hj
    have hjlen : c + j < data.length := by omega
    have hsgt : off0 / 512 < s := by
      have := hF2 (c + j) (by omega) hjlen
      omega
    refine ⟨by omega, ⟨c + j, hjlen, by omega⟩, ?_⟩
    intro i hilen hisec
    have hic : c ≤ i := by
      by_contra hlt
      have := hF1 i (by omega)
      omega
    have hz := hzero (i - c) (by rw [hlend]; omega) (by omega)
    rw [getD_drop_add] at hz
    have hci : c + (i - c) = i := by omega
    rwa [hci] at hz
  · rintro ⟨hss, ⟨i, hilen, hisec⟩, hzero⟩
    have hic : c ≤ i := by
      by_contra hlt
      have := hF1 i (by omega)
      omega
    refine ⟨⟨i - c, by rw [hlend]; omega, by omega⟩, ?_⟩
    intro j hj hjsec
    rw [hlend] at hj
    rw [getD_drop_add]
    exact hzero (c + j) (by omega) (by omega)

/-- Some sector-aligned chunk of `data` is all zero iff some disk sector
touched by `data` holds only zero bytes of `data`. -/
theorem splitChunks_any_zeroSector :
    ∀ n (data : List Nat), data.length ≤ n → ∀ off0 : Nat,
      ((splitChunks (off0 : Int) data).any allZero = true ↔
        ∃ s, zeroSector off0 data s) := by
  intro n
  induction n with
  | zero =>
    intro data hlen off0
    have hnil : data = [] := List.length_eq_zero.mp (by omega)
    subst hnil
    constructor
    · intro h
      rw [splitChunks, splitChunksGo_nil] at h
      simp at h
    · rintro ⟨s, ⟨i, hi, -⟩, -⟩
      simp at hi
  | succ n ih =>
    intro data hlen off0
    by_cases hd : data.length = 0
    · have hnil : data = [] := List.length_eq_zero.mp hd
      subst hnil
      constructor
      · intro h
        rw [splitChunks, splitChunksGo_nil] at h
        simp at h
      · rintro ⟨s, ⟨i, hi, -⟩, -⟩
        simp at hi
    · have hmod : off0 % 512 < 512 := Nat.mod_lt _ (by norm_num)
      have hsplit := splitChunks_cons (off0 : Int) data
        (min (512 - off0 % 512) data.length) hd
        (by rw [tmod_chunkLen_natCast])
      have hcast : ((off0 : Int) + ((min (512 - off0 % 512) data.length : Nat) : Int)) =
          ((off0 + min (512 - off0 % 512) data.length : Nat) : Int) := by
        push_cast
        ring
      rw [hsplit, hcast, List.any_cons, Bool.or_eq_true]
      have hcpos : 0 < min (512 - off0 % 512) data.length := by omega
      rw [ih (data.drop (min (512 - off0 % 512) data.length))
        (by rw [List.length_drop]; omega)
        (off0 + min (512 - off0 % 512) data.length)]
      rw [zeroSector_head off0 data hd (min (512 - off0 % 512) data.length) rfl]
      constructor
      · rintro (h | ⟨s, hs⟩)
        · exact ⟨off0 / 512, h⟩
        · exact ⟨s,
            ((zeroSector_tail off0 data (min (512 - off0 % 512) data.length)
              rfl s).mp hs).2⟩
      · rintro ⟨s, hs⟩
        by_cases hss : s = off0 / 512
        · left
          rwa [hss] at hs
        · right
          exact ⟨s, (zeroSector_tail off0 data
            (min (512 - off0 % 512) data.length) rfl s).mpr ⟨hss, hs⟩⟩

/-- C1: for a failed record attempt with payload+padding bytes `data`,
`isTornEntry` classifies it as torn iff exactly one segment reader
remains and at least one sector-aligned chunk of `data` is entirely
zero, chunks being cut at 512-byte sector boundaries of absolute file
offsets starting from `lastValidOff + 8`; whenever the number of
remaining readers is not exactly one, the classifier returns not-torn
regardless of the byte content. -/
theorem isTornEntry_torn_iff (brs : List FileBufReader) (off : Int)
    (data : List Nat) (hoff : 0 ≤ off) :
    (isTornEntry brs off data = true ↔
      brs.length = 1 ∧ ∃ s, zeroSector (off + frameSizeBytes).toNat data s) ∧
    (brs.length ≠ 1 → isTornEntry brs off data = false) := by
  constructor
  · rw [isTornEntry]
    by_cases hb : brs.length ≠ 1
    · rw [if_pos hb]
      simp only [Bool.false_eq_true, false_iff]
      rintro ⟨h1, -⟩
      exact hb h1
    · rw [if_neg hb]
      push_neg at hb
      have hnn : (0 : Int) ≤ off + frameSizeBytes := by
        simp only [frameSizeBytes]
        omega
      have hmain := splitChunks_any_zeroSector data.length data (le_refl _)
        (off + frameSizeBytes).toNat
      rw [Int.toNat_of_nonneg hnn] at hmain
      rw [hmain]
      simp [hb]
  · intro hb
    rw [isTornEntry, if_pos hb]

/-- Witness for C1: two zero bytes at offsets 8–9 of the only remaining
segment form a zero chunk of the first sector. -/
theorem isTornEntry_torn_iff_witness :
    (isTornEntry [⟨[], 10⟩] 0 [0, 0] = true ↔
      ([⟨[], 10⟩] : List FileBufReader).length = 1 ∧
        ∃ s, zeroSector ((0 : Int) + frameSizeBytes).toNat [0, 0] s) ∧
    (([⟨[], 10⟩] : List FileBufReader).length ≠ 1 →
      isTornEntry [⟨[], 10⟩] 0 [0, 0] = false) :=
  isTornEntry_torn_iff [⟨[], 10⟩] 0 [0, 0] (by norm_num)

end Wal
